import Mathlib

/-!
# Broadcast room of `main.go`

A shallow embedding of the room registry (`Room.Connections`), of
`Room.Broadcast`, `Room.BroadcastString` and of `Room.socketHandler`.

* A connection handle (`*websocket.Conn`) is a natural number; the nil pointer
  is `none` of `Option Conn`.
* A Go string and a byte slice are both a `String`; the conversions
  `[]byte(message)` and `string(p)` keep the content.
* The Go map is a list of entries with pairwise distinct keys.  The order in
  which `range` visits the entries is chosen by the environment.
* Everything a handler does to the outside (a write attempted on a
  connection, a log line, a call of `Close`) is appended to a trace.
* Whether a write fails is decided by the environment and may depend on the
  whole trace so far, so any set of failing writes is covered.
* `socketHandler` is first modelled as one sequential run (handshake, messages
  read, read failure, deferred calls).  `System` then interleaves the handlers
  of many connections, one lifecycle step at a time; each step is atomic.
  Races between goroutines on the unsynchronised map are outside the model.
* `websocket.Conn.Close` of the gorilla library dereferences its receiver, so a
  call on the nil pointer panics.
-/

namespace Whist

/-- Connection handle: the identity of a non-nil `*websocket.Conn`. -/
abbrev Conn := Nat

/-- Constant `websocket.TextMessage` of the gorilla library. -/
def TextMessage : Nat := 1

/-- Side effects of the handlers, in the order they happen. -/
inductive Effect where
  | write (conn : Conn) (messageType : Nat) (data : String)
  | log (line : String)
  | close (conn : Option Conn)
  deriving DecidableEq, Repr

/-- The map `map[string]*websocket.Conn`: entries with pairwise distinct keys. -/
structure Registry where
  entries : List (String × Conn)
  nodupKeys : (entries.map Prod.fst).Nodup

/-- Entries of a list whose key differs from `name`. -/
def dropKey (name : String) (l : List (String × Conn)) : List (String × Conn) :=
  l.filter (fun e => decide (e.1 ≠ name))

namespace Registry

/-- The map `make(map[string]*websocket.Conn)`. -/
def empty : Registry := ⟨[], List.nodup_nil⟩

/-- The map write `room.Connections[name] = conn`. -/
def insert (R : Registry) (name : String) (conn : Conn) : Registry :=
  ⟨(name, conn) :: dropKey name R.entries, by
    rw [List.map_cons, List.nodup_cons]
    refine ⟨?_, ((List.filter_sublist R.entries).map Prod.fst).nodup R.nodupKeys⟩
    intro hmem
    rcases List.mem_map.1 hmem with ⟨e, he, hk⟩
    have hne := (List.mem_filter.1 he).2
    simp [hk] at hne⟩

/-- The builtin `delete(room.Connections, name)`. -/
def delete (R : Registry) (name : String) : Registry :=
  ⟨dropKey name R.entries, ((List.filter_sublist R.entries).map Prod.fst).nodup R.nodupKeys⟩

/-- The map read `room.Connections[name]`. -/
def lookup (R : Registry) (name : String) : Option Conn :=
  (R.entries.find? (fun e => decide (e.1 = name))).map Prod.snd

/-- Keys of the map. -/
def names (R : Registry) : List String := R.entries.map Prod.fst

/-- Handles stored in the map, one per entry. -/
def handles (R : Registry) : List Conn := R.entries.map Prod.snd

/-- Number of names under which `conn` is stored. -/
def bindings (R : Registry) (conn : Conn) : Nat := R.handles.count conn

end Registry

/-- Type `Room` of the source. -/
structure Room where
  Name : String
  Connections : Registry

/-- The shared room together with the trace of effects so far. -/
structure World where
  room : Room
  trace : List Effect

/-- The world of `main` before any connection. -/
def World.init : World :=
  { room := { Name := "Default", Connections := Registry.empty }, trace := [] }

/-- What the surroundings decide: whether a write fails (and with which
error), given the trace before the attempt, and in which order `range` visits
the entries of the map. -/
structure Env where
  WriteMessage : List Effect → Conn → Nat → String → Option String
  rangeOrder : List Effect → List (String × Conn) → List (String × Conn)
  rangeOrder_perm : ∀ t l, (rangeOrder t l).Perm l

/-- Body of the loop of `Broadcast`: one `connection.WriteMessage`, logged when it fails. -/
def writeTo (E : Env) (message : String) (w : World) (connection : Conn) : World :=
  match E.WriteMessage w.trace connection TextMessage message with
  | some err =>
    { w with trace := w.trace ++ [Effect.write connection TextMessage message,
                                  Effect.log ("conn.WriteMessage: " ++ err)] }
  | none => { w with trace := w.trace ++ [Effect.write connection TextMessage message] }

/-- Function `Room.Broadcast`: `for _, connection := range room.Connections`. -/
def Broadcast (E : Env) (w : World) (message : String) : World :=
  ((E.rangeOrder w.trace w.room.Connections.entries).map Prod.snd).foldl (writeTo E message) w

/-- Function `Room.BroadcastString`. -/
def BroadcastString (E : Env) (w : World) (message : String) : World :=
  Broadcast E w message

/-- Writes attempted on `conn` in a trace, in order: message type and data. -/
def writesOn (conn : Conn) (t : List Effect) : List (Nat × String) :=
  t.filterMap (fun e =>
    match e with
    | Effect.write c mt d => if c = conn then some (mt, d) else none
    | _ => none)

/-- Effects appended between the world `w` and the later world `w2`. -/
def emitted (w w2 : World) : List Effect := w2.trace.drop w.trace.length

/-- How a call of `socketHandler` ends. -/
inductive Outcome where
  | returned
  | panicked
  deriving DecidableEq, Repr

/-- Result of `upgrader.Upgrade`: the library returns either a handle and a nil
error, or a nil handle and an error. -/
abbrev Upgrade := Except String Conn

/-- The pointer `conn` after `conn, err := upgrader.Upgrade(w, r, nil)`. -/
def Upgrade.conn : Upgrade → Option Conn
  | Except.ok c => some c
  | Except.error _ => none

/-- Call of `log.Printf`. -/
def logPrintf (line : String) (w : World) : World :=
  { w with trace := w.trace ++ [Effect.log line] }

/-- The deferred `conn.Close()` of line 82.  The call is made on whatever
`conn` held when the defer statement ran; on the nil pointer the method
dereferences its receiver and the goroutine panics. -/
def Close (conn : Option Conn) (w : World) : World × Outcome :=
  match conn with
  | some c => ({ w with trace := w.trace ++ [Effect.close (some c)] }, Outcome.returned)
  | none => ({ w with trace := w.trace ++ [Effect.close none] }, Outcome.panicked)

/-- Line 93, `room.Connections[name] = conn`: the operation the specification calls Join. -/
def Join (name : String) (conn : Conn) (w : World) : World :=
  { w with room := { w.room with Connections := w.room.Connections.insert name conn } }

/-- Line 94 when it runs, `delete(room.Connections, name)`: the operation the
specification calls Leave. -/
def Leave (name : String) (w : World) : World :=
  { w with room := { w.room with Connections := w.room.Connections.delete name } }

/-- Lines 89 to 93: the announcement of the join, then the map write. -/
def joined (E : Env) (name : String) (conn : Conn) (w : World) : World :=
  Join name conn (BroadcastString E w (name ++ " has joined the room."))

/-- Lines 103 to 105: one message read without error. -/
def relay (E : Env) (name : String) (messageType : Nat) (p : String) (w : World) : World :=
  if messageType = TextMessage then BroadcastString E w (name ++ " " ++ p) else w

/-- Lines 96 to 106: the messages read before the read fails, then the read
that fails with `readErr`, which is logged and ends the loop. -/
def readLoop (E : Env) (name : String) (reads : List (Nat × String)) (readErr : String)
    (w : World) : World :=
  match reads with
  | [] => logPrintf ("conn.ReadMessage: " ++ readErr) w
  | (messageType, p) :: rest => readLoop E name rest readErr (relay E name messageType p w)

/-- The deferred calls of a handler that joined, in the order Go runs them
(last deferred first): `delete(room.Connections, name)`, the announcement of
the departure, `conn.Close()`. -/
def deferredCalls (E : Env) (name : String) (conn : Conn) (w : World) : World × Outcome :=
  Close (some conn) (BroadcastString E (Leave name w) (name ++ " has left the room."))

/-- Function `Room.socketHandler`, run without another handler in between:
`upgrade` is what `upgrader.Upgrade` returns, `name` is `r.FormValue("name")`,
`reads` are the messages `conn.ReadMessage` returns before it fails with
`readErr`. -/
def socketHandler (E : Env) (upgrade : Upgrade) (name : String)
    (reads : List (Nat × String)) (readErr : String) (w : World) : World × Outcome :=
  match upgrade with
  | Except.error err =>
    Close (Upgrade.conn (Except.error err)) (logPrintf ("upgrader.Upgrade: " ++ err) w)
  | Except.ok conn => deferredCalls E name conn (readLoop E name reads readErr (joined E name conn w))

/-- The world of a handler that joined at the moment its read has failed and
the failure is logged, before the deferred calls run. -/
def atReadFailure (E : Env) (name : String) (conn : Conn) (reads : List (Nat × String))
    (readErr : String) (w : World) : World :=
  readLoop E name reads readErr (joined E name conn w)

/-- A handler that joined and is blocked in `conn.ReadMessage()`: its locals. -/
structure Handler where
  name : String
  conn : Conn
  deriving DecidableEq, Repr

/-- The room shared by all handlers, the handlers whose read loop has not
ended, and the number of handles `upgrader.Upgrade` has returned so far. -/
structure System where
  world : World
  live : List Handler
  nextConn : Conn

/-- Lifecycle steps of the connections. -/
inductive Action where
  | join (name : String)
  | message (conn : Conn) (messageType : Nat) (p : String)
  | readFail (conn : Conn) (readErr : String)
  deriving DecidableEq, Repr

/-- The handler of `conn` among the live ones. -/
def handlerOf (live : List Handler) (conn : Conn) : Option Handler :=
  live.find? (fun h => decide (h.conn = conn))

/-- One lifecycle step.  A join gets a handle never returned before; a message
or a read failure of a connection without live handler changes nothing. -/
def System.step (E : Env) (s : System) : Action → System
  | Action.join name =>
    { world := joined E name s.nextConn s.world
      live := ⟨name, s.nextConn⟩ :: s.live
      nextConn := s.nextConn + 1 }
  | Action.message conn messageType p =>
    match handlerOf s.live conn with
    | some h => { s with world := relay E h.name messageType p s.world }
    | none => s
  | Action.readFail conn readErr =>
    match handlerOf s.live conn with
    | some h =>
      { s with
        world := (deferredCalls E h.name h.conn (logPrintf ("conn.ReadMessage: " ++ readErr) s.world)).1
        live := s.live.filter (fun k => decide (k.conn ≠ conn)) }
    | none => s

/-- State of `main` before any connection: the room `Default` with an empty map. -/
def System.init : System :=
  { world := World.init
    live := []
    nextConn := 0 }

/-- State after a sequence of lifecycle steps from the start. -/
def System.run (E : Env) (acts : List Action) : System :=
  acts.foldl (System.step E) System.init

/-- No join of the sequence uses the name of a handler live at that moment. -/
def freshNames (E : Env) (s : System) : List Action → Bool
  | [] => true
  | Action.join name :: rest =>
    decide (name ∉ s.live.map Handler.name) && freshNames E (s.step E (Action.join name)) rest
  | Action.message conn messageType p :: rest =>
    freshNames E (s.step E (Action.message conn messageType p)) rest
  | Action.readFail conn readErr :: rest =>
    freshNames E (s.step E (Action.readFail conn readErr)) rest

/-- An environment where `range` visits the entries as stored and the writes
on the connections of `failing` fail with "broken pipe". -/
def Env.simple (failing : List Conn) : Env :=
  { WriteMessage := fun _ c _ _ => if c ∈ failing then some "broken pipe" else none
    rangeOrder := fun _ l => l
    rangeOrder_perm := fun _ l => List.Perm.refl l }

/-- An environment where `range` visits the entries in reverse and no write fails. -/
def Env.reversed : Env :=
  { WriteMessage := fun _ _ _ _ => none
    rangeOrder := fun _ l => l.reverse
    rangeOrder_perm := fun _ l => List.reverse_perm l }

/-- A room with the three connections 1, 2 and 3 under the names a, b and c. -/
def roomABC : World :=
  Join "c" 3 (Join "b" 2 (Join "a" 1 World.init))

/-! ## Lemmas on the registry -/

theorem Registry.eq_of_entries {R S : Registry} (h : R.entries = S.entries) : R = S := by
  cases R
  cases S
  cases h
  rfl

theorem mem_dropKey {name : String} {l : List (String × Conn)} {e : String × Conn} :
    e ∈ dropKey name l ↔ e ∈ l ∧ e.1 ≠ name := by
  simp [dropKey, List.mem_filter]

theorem dropKey_eq_self {name : String} {l : List (String × Conn)}
    (h : name ∉ l.map Prod.fst) : dropKey name l = l := by
  unfold dropKey
  rw [List.filter_eq_self]
  intro e he
  have hne : e.1 ≠ name := fun heq => h (List.mem_map.2 ⟨e, he, heq⟩)
  simpa using hne

theorem filter_key_dropKey (name : String) (l : List (String × Conn)) :
    (dropKey name l).filter (fun e => decide (e.1 = name)) = [] := by
  rw [List.filter_eq_nil_iff]
  intro e he
  have := (mem_dropKey.1 he).2
  simpa using this

theorem find_key_dropKey_ne {name other : String} (hne : other ≠ name)
    (l : List (String × Conn)) :
    (dropKey name l).find? (fun e => decide (e.1 = other))
      = l.find? (fun e => decide (e.1 = other)) := by
  induction l with
  | nil => rfl
  | cons e rest ih =>
    by_cases hk : e.1 = name
    · have h1 : dropKey name (e :: rest) = dropKey name rest := by
        simp [dropKey, hk]
      have h2 : ¬ e.1 = other := fun h => hne (h.symm.trans hk)
      rw [h1, ih, List.find?_cons_of_neg]
      simpa using h2
    · have h1 : dropKey name (e :: rest) = e :: dropKey name rest := by
        simp [dropKey, hk]
      rw [h1]
      by_cases ho : e.1 = other
      · rw [List.find?_cons_of_pos, List.find?_cons_of_pos] <;> simpa using ho
      · rw [List.find?_cons_of_neg, List.find?_cons_of_neg, ih] <;> simpa using ho

theorem find_key_dropKey_self (name : String) (l : List (String × Conn)) :
    (dropKey name l).find? (fun e => decide (e.1 = name)) = none := by
  rw [List.find?_eq_none]
  intro e he
  have := (mem_dropKey.1 he).2
  simpa using this

theorem lookup_of_mem (R : Registry) {e : String × Conn} (he : e ∈ R.entries) :
    R.lookup e.1 = some e.2 := by
  obtain ⟨l, hl⟩ := R
  unfold Registry.lookup
  simp only at he ⊢
  induction l with
  | nil => cases he
  | cons a rest ih =>
    rw [List.map_cons, List.nodup_cons] at hl
    rcases List.mem_cons.1 he with h | h
    · subst h
      simp
    · have hne : ¬ a.1 = e.1 := fun heq => hl.1 (heq ▸ List.mem_map.2 ⟨e, h, rfl⟩)
      rw [List.find?_cons_of_neg]
      · exact ih hl.2 h
      · simpa using hne

theorem mem_of_lookup (R : Registry) {name : String} {c : Conn}
    (h : R.lookup name = some c) : (name, c) ∈ R.entries := by
  unfold Registry.lookup at h
  rw [Option.map_eq_some'] at h
  obtain ⟨e, he, hc⟩ := h
  have hk := List.find?_some he
  have hm := List.mem_of_find?_eq_some he
  have hname : e.1 = name := by simpa using hk
  have : e = (name, c) := Prod.ext hname hc
  exact this ▸ hm

/-! ## Lemmas on the trace -/

theorem writesOn_append (c : Conn) (a b : List Effect) :
    writesOn c (a ++ b) = writesOn c a ++ writesOn c b := by
  simp [writesOn, List.filterMap_append]

theorem emitted_of_append {w w2 : World} {x : List Effect} (h : w2.trace = w.trace ++ x) :
    emitted w w2 = x := by
  simp [emitted, h]

/-- What a sequence of loop bodies of `Broadcast` appends and leaves alone. -/
theorem foldl_writeTo (E : Env) (m : String) :
    ∀ (cs : List Conn) (w : World),
      ∃ x, (cs.foldl (writeTo E m) w).trace = w.trace ++ x
        ∧ (cs.foldl (writeTo E m) w).room = w.room
        ∧ (∀ c, writesOn c x = List.replicate (cs.count c) (TextMessage, m))
        ∧ (∀ e ∈ x, (∃ c ∈ cs, e = Effect.write c TextMessage m) ∨ ∃ l, e = Effect.log l) := by
  intro cs
  induction cs with
  | nil =>
    intro w
    exact ⟨[], by simp, rfl, by simp [writesOn], by simp⟩
  | cons c rest ih =>
    intro w
    obtain ⟨y, hy, hroom, hcount, hshape⟩ := ih (writeTo E m w c)
    have hstep : ∃ z, (writeTo E m w c).trace = w.trace ++ z
        ∧ (writeTo E m w c).room = w.room
        ∧ (∀ d, writesOn d z = if c = d then [(TextMessage, m)] else [])
        ∧ (∀ e ∈ z, e = Effect.write c TextMessage m ∨ ∃ l, e = Effect.log l) := by
      unfold writeTo
      cases E.WriteMessage w.trace c TextMessage m with
      | none =>
        refine ⟨[Effect.write c TextMessage m], rfl, rfl, ?_, ?_⟩
        · intro d
          by_cases hd : c = d <;> simp [writesOn, hd]
        · intro e he
          left
          simpa using he
      | some err =>
        refine ⟨[Effect.write c TextMessage m, Effect.log ("conn.WriteMessage: " ++ err)],
          rfl, rfl, ?_, ?_⟩
        · intro d
          by_cases hd : c = d <;> simp [writesOn, hd]
        · intro e he
          rcases List.mem_cons.1 he with h | h
          · exact Or.inl h
          · right
            exact ⟨_, by simpa using h⟩
    obtain ⟨z, hz, hzroom, hzcount, hzshape⟩ := hstep
    refine ⟨z ++ y, ?_, ?_, ?_, ?_⟩
    · rw [List.foldl_cons, hy, hz, List.append_assoc]
    · rw [List.foldl_cons, hroom, hzroom]
    · intro d
      rw [writesOn_append, hzcount, hcount]
      by_cases hd : c = d
      · subst hd
        simp [List.replicate_succ]
      · have hd2 : ¬ (c == d) = true := by simpa using hd
        simp [hd, List.count_cons, hd2]
    · intro e he
      rcases List.mem_append.1 he with h | h
      · rcases hzshape e h with h2 | h2
        · exact Or.inl ⟨c, List.mem_cons_self _ _, h2⟩
        · exact Or.inr h2
      · rcases hshape e h with ⟨d, hd, h2⟩ | h2
        · exact Or.inl ⟨d, List.mem_cons_of_mem _ hd, h2⟩
        · exact Or.inr h2

/-- What `Broadcast` appends to the trace and leaves alone. -/
theorem Broadcast_spec (E : Env) (w : World) (m : String) :
    ∃ x, (Broadcast E w m).trace = w.trace ++ x
      ∧ (Broadcast E w m).room = w.room
      ∧ (∀ c, writesOn c x = List.replicate (w.room.Connections.bindings c) (TextMessage, m))
      ∧ (∀ e ∈ x, (∃ c ∈ w.room.Connections.handles, e = Effect.write c TextMessage m)
          ∨ ∃ l, e = Effect.log l) := by
  obtain ⟨x, hx, hroom, hcount, hshape⟩ :=
    foldl_writeTo E m ((E.rangeOrder w.trace w.room.Connections.entries).map Prod.snd) w
  have hperm : ((E.rangeOrder w.trace w.room.Connections.entries).map Prod.snd).Perm
      w.room.Connections.handles :=
    (E.rangeOrder_perm w.trace w.room.Connections.entries).map Prod.snd
  refine ⟨x, hx, hroom, ?_, ?_⟩
  · intro c
    rw [hcount c, hperm.count_eq c]
    rfl
  · intro e he
    rcases hshape e he with ⟨c, hc, h2⟩ | h2
    · exact Or.inl ⟨c, hperm.mem_iff.1 hc, h2⟩
    · exact Or.inr h2

theorem Broadcast_trace (E : Env) (w : World) (m : String) :
    (Broadcast E w m).trace = w.trace ++ emitted w (Broadcast E w m) := by
  obtain ⟨x, hx, _⟩ := Broadcast_spec E w m
  rw [emitted_of_append hx]
  exact hx

theorem Broadcast_room (E : Env) (w : World) (m : String) :
    (Broadcast E w m).room = w.room := by
  obtain ⟨x, _, hroom, _⟩ := Broadcast_spec E w m
  exact hroom

theorem Broadcast_writesOn (E : Env) (w : World) (m : String) (c : Conn) :
    writesOn c (emitted w (Broadcast E w m))
      = List.replicate (w.room.Connections.bindings c) (TextMessage, m) := by
  obtain ⟨x, hx, _, hcount, _⟩ := Broadcast_spec E w m
  rw [emitted_of_append hx]
  exact hcount c

theorem bindings_eq_zero {R : Registry} {c : Conn} (hc : c ∉ R.handles) : R.bindings c = 0 :=
  List.count_eq_zero_of_not_mem hc

theorem bindings_pos {R : Registry} {e : String × Conn} (he : e ∈ R.entries) :
    R.bindings e.2 ≠ 0 :=
  Nat.pos_iff_ne_zero.1 (List.count_pos_iff.2 (List.mem_map.2 ⟨e, he, rfl⟩))

theorem Broadcast_empty (E : Env) (w : World) (m : String)
    (h : w.room.Connections.entries = []) : Broadcast E w m = w := by
  unfold Broadcast
  have hnil : E.rangeOrder w.trace w.room.Connections.entries = [] := by
    have hp := E.rangeOrder_perm w.trace w.room.Connections.entries
    rw [h] at hp ⊢
    exact List.Perm.eq_nil hp
  rw [hnil]
  rfl

theorem emitted_self (w : World) : emitted w w = [] := by
  simp [emitted]

theorem relay_spec (E : Env) (n : String) (mt : Nat) (p : String) (w : World) :
    ∃ x, (relay E n mt p w).trace = w.trace ++ x
      ∧ (relay E n mt p w).room = w.room
      ∧ (∀ c, writesOn c x = if mt = TextMessage
          then List.replicate (w.room.Connections.bindings c) (TextMessage, n ++ " " ++ p)
          else []) := by
  unfold relay BroadcastString
  by_cases hmt : mt = TextMessage
  · rw [if_pos hmt]
    obtain ⟨x, hx, hroom, hcount, _⟩ := Broadcast_spec E w (n ++ " " ++ p)
    exact ⟨x, hx, hroom, fun c => by rw [if_pos hmt]; exact hcount c⟩
  · rw [if_neg hmt]
    exact ⟨[], by simp, rfl, fun c => by rw [if_neg hmt]; rfl⟩

theorem readLoop_spec (E : Env) (n : String) (readErr : String) :
    ∀ (reads : List (Nat × String)) (w : World),
      ∃ x, (readLoop E n reads readErr w).trace = w.trace ++ x
        ∧ (readLoop E n reads readErr w).room = w.room
        ∧ (∀ c, writesOn c x
            = (reads.filter (fun r => decide (r.1 = TextMessage))).flatMap
                (fun r => List.replicate (w.room.Connections.bindings c)
                  (TextMessage, n ++ " " ++ r.2))) := by
  intro reads
  induction reads with
  | nil =>
    intro w
    exact ⟨[Effect.log ("conn.ReadMessage: " ++ readErr)], rfl, rfl, fun c => by simp [writesOn]⟩
  | cons r rest ih =>
    intro w
    obtain ⟨mt, p⟩ := r
    obtain ⟨x, hx, hroom, hcount⟩ := relay_spec E n mt p w
    obtain ⟨y, hy, hroom2, hcount2⟩ := ih (relay E n mt p w)
    refine ⟨x ++ y, ?_, ?_, ?_⟩
    · show (readLoop E n rest readErr (relay E n mt p w)).trace = _
      rw [hy, hx, List.append_assoc]
    · show (readLoop E n rest readErr (relay E n mt p w)).room = _
      rw [hroom2, hroom]
    · intro c
      rw [writesOn_append, hcount c, hcount2 c, hroom]
      by_cases hmt : mt = TextMessage
      · simp [hmt, List.flatMap_cons]
      · simp [hmt]

theorem dropKey_dropKey (name : String) (l : List (String × Conn)) :
    dropKey name (dropKey name l) = dropKey name l := by
  apply dropKey_eq_self
  intro hmem
  rcases List.mem_map.1 hmem with ⟨e, he, hk⟩
  exact (mem_dropKey.1 he).2 hk

theorem dropKey_cons_self (name : String) (c : Conn) (l : List (String × Conn)) :
    dropKey name ((name, c) :: l) = dropKey name l := by
  simp [dropKey]

theorem joined_entries (E : Env) (n : String) (c : Conn) (w : World) :
    (joined E n c w).room.Connections.entries = (n, c) :: dropKey n w.room.Connections.entries := by
  show ((Broadcast E w (n ++ " has joined the room.")).room.Connections.insert n c).entries = _
  rw [Broadcast_room]
  rfl

theorem deferredCalls_entries (E : Env) (n : String) (c : Conn) (w : World) :
    (deferredCalls E n c w).1.room.Connections.entries = dropKey n w.room.Connections.entries := by
  show (Broadcast E (Leave n w) (n ++ " has left the room.")).room.Connections.entries = _
  rw [Broadcast_room]
  rfl

theorem atReadFailure_entries (E : Env) (n : String) (c : Conn) (reads : List (Nat × String))
    (readErr : String) (w : World) :
    (atReadFailure E n c reads readErr w).room.Connections.entries
      = (n, c) :: dropKey n w.room.Connections.entries := by
  obtain ⟨x, _, hroom, _⟩ := readLoop_spec E n readErr reads (joined E n c w)
  unfold atReadFailure
  rw [hroom, joined_entries]

theorem relay_entries (E : Env) (n : String) (mt : Nat) (p : String) (w : World) :
    (relay E n mt p w).room.Connections.entries = w.room.Connections.entries := by
  obtain ⟨x, _, hroom, _⟩ := relay_spec E n mt p w
  rw [hroom]

theorem handlerOf_some {live : List Handler} {conn : Conn} {h : Handler}
    (hh : handlerOf live conn = some h) : h ∈ live ∧ h.conn = conn := by
  unfold handlerOf at hh
  exact ⟨List.mem_of_find?_eq_some hh, by simpa using List.find?_some hh⟩

theorem step_message_none (E : Env) (s : System) (conn : Conn) (mt : Nat) (p : String)
    (hh : handlerOf s.live conn = none) : s.step E (Action.message conn mt p) = s := by
  simp [System.step, hh]

theorem step_message_some (E : Env) (s : System) (conn : Conn) (mt : Nat) (p : String)
    (h : Handler) (hh : handlerOf s.live conn = some h) :
    s.step E (Action.message conn mt p) = { s with world := relay E h.name mt p s.world } := by
  simp [System.step, hh]

theorem step_readFail_none (E : Env) (s : System) (conn : Conn) (readErr : String)
    (hh : handlerOf s.live conn = none) : s.step E (Action.readFail conn readErr) = s := by
  simp [System.step, hh]

theorem step_readFail_some (E : Env) (s : System) (conn : Conn) (readErr : String)
    (h : Handler) (hh : handlerOf s.live conn = some h) :
    s.step E (Action.readFail conn readErr)
      = { s with
          world := (deferredCalls E h.name h.conn (logPrintf ("conn.ReadMessage: " ++ readErr) s.world)).1
          live := s.live.filter (fun k => decide (k.conn ≠ conn)) } := by
  simp [System.step, hh]

/-- Facts kept by every lifecycle step: every live handle was returned by an
earlier upgrade, the live handles are pairwise distinct, and every entry of the
registry belongs to a live handler of that name and handle. -/
theorem step_keeps (E : Env) (s : System) (a : Action)
    (h1 : ∀ h ∈ s.live, h.conn < s.nextConn)
    (h2 : (s.live.map Handler.conn).Nodup)
    (h3 : ∀ e ∈ s.world.room.Connections.entries, (⟨e.1, e.2⟩ : Handler) ∈ s.live) :
    (∀ h ∈ (s.step E a).live, h.conn < (s.step E a).nextConn)
    ∧ ((s.step E a).live.map Handler.conn).Nodup
    ∧ (∀ e ∈ (s.step E a).world.room.Connections.entries,
        (⟨e.1, e.2⟩ : Handler) ∈ (s.step E a).live) := by
  cases a with
  | join name =>
    refine ⟨?_, ?_, ?_⟩
    · intro h hh
      rcases List.mem_cons.1 hh with hq | hq
      · rw [hq]
        exact Nat.lt_succ_self _
      · exact Nat.lt_succ_of_lt (h1 h hq)
    · show (s.nextConn :: s.live.map Handler.conn).Nodup
      rw [List.nodup_cons]
      refine ⟨?_, h2⟩
      intro hmem
      rcases List.mem_map.1 hmem with ⟨h, hh, hc⟩
      exact absurd (h1 h hh) (by rw [hc]; exact Nat.lt_irrefl _)
    · intro e he
      have he2 : e ∈ (name, s.nextConn) :: dropKey name s.world.room.Connections.entries := by
        rw [← joined_entries E name s.nextConn s.world]
        exact he
      show (⟨e.1, e.2⟩ : Handler) ∈ (⟨name, s.nextConn⟩ : Handler) :: s.live
      rcases List.mem_cons.1 he2 with hq | hq
      · rw [hq]
        exact List.mem_cons_self _ _
      · exact List.mem_cons_of_mem _ (h3 e (mem_dropKey.1 hq).1)
  | message conn mt p =>
    cases hh : handlerOf s.live conn with
    | none =>
      rw [step_message_none E s conn mt p hh]
      exact ⟨h1, h2, h3⟩
    | some h =>
      rw [step_message_some E s conn mt p h hh]
      refine ⟨h1, h2, ?_⟩
      intro e he
      have he2 : e ∈ (relay E h.name mt p s.world).room.Connections.entries := he
      rw [relay_entries] at he2
      exact h3 e he2
  | readFail conn readErr =>
    cases hh : handlerOf s.live conn with
    | none =>
      rw [step_readFail_none E s conn readErr hh]
      exact ⟨h1, h2, h3⟩
    | some h =>
      rw [step_readFail_some E s conn readErr h hh]
      obtain ⟨hlive, hconn⟩ := handlerOf_some hh
      refine ⟨?_, ?_, ?_⟩
      · intro k hk
        exact h1 k (List.mem_filter.1 hk).1
      · exact ((List.filter_sublist s.live).map Handler.conn).nodup h2
      · intro e he
        have he2 : e ∈ (deferredCalls E h.name h.conn
            (logPrintf ("conn.ReadMessage: " ++ readErr) s.world)).1.room.Connections.entries := he
        rw [deferredCalls_entries] at he2
        obtain ⟨hmem, hne⟩ := mem_dropKey.1 he2
        have hk : (⟨e.1, e.2⟩ : Handler) ∈ s.live := h3 e hmem
        show (⟨e.1, e.2⟩ : Handler) ∈ s.live.filter (fun k => decide (k.conn ≠ conn))
        rw [List.mem_filter]
        refine ⟨hk, ?_⟩
        have hdiff : e.2 ≠ conn := by
          intro heq
          have hsame : (⟨e.1, e.2⟩ : Handler) = h :=
            List.inj_on_of_nodup_map h2 hk hlive (by rw [hconn]; exact heq)
          exact hne (congrArg Handler.name hsame)
        simpa using hdiff

/-- Facts kept by a step that is not a join under the name of a live handler:
every live handler is registered under its name with its handle, and the names
of the live handlers are pairwise distinct. -/
theorem step_keeps_registered (E : Env) (s : System) (a : Action)
    (h4 : ∀ h ∈ s.live, (h.name, h.conn) ∈ s.world.room.Connections.entries)
    (h5 : (s.live.map Handler.name).Nodup)
    (hnew : ∀ name, a = Action.join name → name ∉ s.live.map Handler.name) :
    (∀ h ∈ (s.step E a).live, (h.name, h.conn) ∈ (s.step E a).world.room.Connections.entries)
    ∧ ((s.step E a).live.map Handler.name).Nodup := by
  cases a with
  | join name =>
    have hfresh := hnew name rfl
    refine ⟨?_, ?_⟩
    · intro h hh
      show (h.name, h.conn) ∈ (joined E name s.nextConn s.world).room.Connections.entries
      rw [joined_entries]
      rcases List.mem_cons.1 hh with hq | hq
      · rw [hq]
        exact List.mem_cons_self _ _
      · refine List.mem_cons_of_mem _ (mem_dropKey.2 ⟨h4 h hq, ?_⟩)
        intro heq
        exact hfresh (List.mem_map.2 ⟨h, hq, heq⟩)
    · show (name :: s.live.map Handler.name).Nodup
      exact List.nodup_cons.2 ⟨hfresh, h5⟩
  | message conn mt p =>
    cases hh : handlerOf s.live conn with
    | none =>
      rw [step_message_none E s conn mt p hh]
      exact ⟨h4, h5⟩
    | some h =>
      rw [step_message_some E s conn mt p h hh]
      refine ⟨?_, h5⟩
      intro k hk
      show (k.name, k.conn) ∈ (relay E h.name mt p s.world).room.Connections.entries
      rw [relay_entries]
      exact h4 k hk
  | readFail conn readErr =>
    cases hh : handlerOf s.live conn with
    | none =>
      rw [step_readFail_none E s conn readErr hh]
      exact ⟨h4, h5⟩
    | some h =>
      rw [step_readFail_some E s conn readErr h hh]
      obtain ⟨hlive, hconn⟩ := handlerOf_some hh
      refine ⟨?_, ((List.filter_sublist s.live).map Handler.name).nodup h5⟩
      intro k hk
      show (k.name, k.conn) ∈ (deferredCalls E h.name h.conn
        (logPrintf ("conn.ReadMessage: " ++ readErr) s.world)).1.room.Connections.entries
      rw [deferredCalls_entries]
      obtain ⟨hkl, hkc⟩ := List.mem_filter.1 hk
      refine mem_dropKey.2 ⟨h4 k hkl, ?_⟩
      intro heq
      have hsame : k = h := List.inj_on_of_nodup_map h5 hkl hlive heq
      have hkc2 : k.conn ≠ conn := by simpa using hkc
      exact hkc2 (by rw [hsame, hconn])

theorem foldl_keeps (E : Env) :
    ∀ (acts : List Action) (s : System),
      (∀ h ∈ s.live, h.conn < s.nextConn) →
      (s.live.map Handler.conn).Nodup →
      (∀ e ∈ s.world.room.Connections.entries, (⟨e.1, e.2⟩ : Handler) ∈ s.live) →
      (∀ e ∈ (acts.foldl (System.step E) s).world.room.Connections.entries,
        (⟨e.1, e.2⟩ : Handler) ∈ (acts.foldl (System.step E) s).live) := by
  intro acts
  induction acts with
  | nil =>
    intro s _ _ h3
    exact h3
  | cons a rest ih =>
    intro s h1 h2 h3
    obtain ⟨k1, k2, k3⟩ := step_keeps E s a h1 h2 h3
    exact ih (s.step E a) k1 k2 k3

/-- In every state reached from the start no handle is stored under two names. -/
theorem run_handles_nodup (E : Env) (acts : List Action) :
    (System.run E acts).world.room.Connections.handles.Nodup := by
  have key : ∀ (acts : List Action) (s : System),
      (∀ h ∈ s.live, h.conn < s.nextConn) →
      (s.live.map Handler.conn).Nodup →
      (∀ e ∈ s.world.room.Connections.entries, (⟨e.1, e.2⟩ : Handler) ∈ s.live) →
      ((acts.foldl (System.step E) s).live.map Handler.conn).Nodup := by
    intro acts
    induction acts with
    | nil =>
      intro s _ h2 _
      exact h2
    | cons a rest ih =>
      intro s h1 h2 h3
      obtain ⟨k1, k2, k3⟩ := step_keeps E s a h1 h2 h3
      exact ih (s.step E a) k1 k2 k3
  have hlive : ((System.run E acts).live.map Handler.conn).Nodup :=
    key acts System.init (fun h hh => by cases hh) List.nodup_nil (fun e he => by cases he)
  have hinv := foldl_keeps E acts System.init (fun h hh => by cases hh) List.nodup_nil
    (fun e he => by cases he)
  have hent : (System.run E acts).world.room.Connections.entries.Nodup :=
    List.Nodup.of_map Prod.fst (System.run E acts).world.room.Connections.nodupKeys
  refine List.Nodup.map_on ?_ hent
  intro e1 he1 e2 he2 heq
  have hsame : (⟨e1.1, e1.2⟩ : Handler) = ⟨e2.1, e2.2⟩ :=
    List.inj_on_of_nodup_map hlive (hinv e1 he1) (hinv e2 he2) heq
  exact Prod.ext (congrArg Handler.name hsame) heq

theorem foldl_keeps_registered (E : Env) :
    ∀ (acts : List Action) (s : System),
      freshNames E s acts = true →
      (∀ h ∈ s.live, (h.name, h.conn) ∈ s.world.room.Connections.entries) →
      (s.live.map Handler.name).Nodup →
      (∀ h ∈ (acts.foldl (System.step E) s).live,
        (h.name, h.conn) ∈ (acts.foldl (System.step E) s).world.room.Connections.entries) := by
  intro acts
  induction acts with
  | nil =>
    intro s _ h4 _
    exact h4
  | cons a rest ih =>
    intro s hf h4 h5
    have hrest : freshNames E (s.step E a) rest = true := by
      cases a with
      | join name =>
        simp only [freshNames, Bool.and_eq_true] at hf
        exact hf.2
      | message conn mt p => simpa only [freshNames] using hf
      | readFail conn readErr => simpa only [freshNames] using hf
    have hnew : ∀ name, a = Action.join name → name ∉ s.live.map Handler.name := by
      intro name ha
      subst ha
      simp only [freshNames, Bool.and_eq_true, decide_eq_true_eq] at hf
      exact hf.1
    obtain ⟨k4, k5⟩ := step_keeps_registered E s a h4 h5 hnew
    exact ih (s.step E a) hrest k4 k5

/-! ## The registry operations and `Broadcast` -/

/-- C1. Fan-out of `Room.Broadcast`: for every room, every message `m` and every
order in which `range` visits the map, the broadcast only appends to the trace,
and the writes it attempts on a connection `c` are exactly one text write of `m`
per entry that holds `c`: none on a connection that is not registered, exactly
one on each registered connection when the entries hold distinct handles. -/
theorem Broadcast_fan_out (E : Env) (w : World) (m : String) :
    (Broadcast E w m).trace = w.trace ++ emitted w (Broadcast E w m)
    ∧ (∀ c, writesOn c (emitted w (Broadcast E w m))
        = List.replicate (w.room.Connections.bindings c) (TextMessage, m))
    ∧ (∀ c, c ∉ w.room.Connections.handles → writesOn c (emitted w (Broadcast E w m)) = [])
    ∧ (w.room.Connections.handles.Nodup → ∀ c ∈ w.room.Connections.handles,
        writesOn c (emitted w (Broadcast E w m)) = [(TextMessage, m)]) := by
  obtain ⟨x, hx, _, hcount, _⟩ := Broadcast_spec E w m
  rw [emitted_of_append hx]
  refine ⟨hx, hcount, ?_, ?_⟩
  · intro c hc
    rw [hcount c, Registry.bindings, List.count_eq_zero_of_not_mem hc]
    rfl
  · intro hnd c hc
    rw [hcount c, Registry.bindings, List.count_eq_one_of_mem hnd hc]
    rfl

/-- Instance of C1: in the room of a, b and c, visited in reverse, connection 1
gets exactly one text write of the message. -/
theorem Broadcast_fan_out_witness :
    writesOn 1 (emitted roomABC (Broadcast Env.reversed roomABC "hello"))
      = [(TextMessage, "hello")] :=
  (Broadcast_fan_out Env.reversed roomABC "hello").2.2.2 (by decide) 1 (by decide)

/-- C2. Failure isolation of `Room.Broadcast`: whichever writes the environment
makes fail, the broadcast attempts the text write of `m` on the connection of
every entry (as often as the connection is registered), appends nothing but
these writes and log lines, and leaves the room as it was, so every entry,
failed or not, is still registered afterwards.  The function is total and has
no error result. -/
theorem Broadcast_failure_isolation (E : Env) (w : World) (m : String) :
    (Broadcast E w m).room = w.room
    ∧ (∀ e ∈ w.room.Connections.entries,
        (TextMessage, m) ∈ writesOn e.2 (emitted w (Broadcast E w m)))
    ∧ (∀ c, (writesOn c (emitted w (Broadcast E w m))).length = w.room.Connections.bindings c)
    ∧ (∀ e ∈ w.room.Connections.entries,
        (Broadcast E w m).room.Connections.lookup e.1 = some e.2)
    ∧ (∀ e ∈ emitted w (Broadcast E w m),
        (∃ c ∈ w.room.Connections.handles, e = Effect.write c TextMessage m)
          ∨ ∃ l, e = Effect.log l) := by
  obtain ⟨x, hx, hroom, hcount, hshape⟩ := Broadcast_spec E w m
  rw [emitted_of_append hx]
  refine ⟨hroom, ?_, ?_, ?_, hshape⟩
  · intro e he
    rw [hcount e.2, List.mem_replicate]
    refine ⟨?_, rfl⟩
    have hmem : e.2 ∈ w.room.Connections.handles := List.mem_map.2 ⟨e, he, rfl⟩
    exact Nat.pos_iff_ne_zero.1 (List.count_pos_iff.2 hmem)
  · intro c
    rw [hcount c, List.length_replicate]
  · intro e he
    rw [hroom]
    exact lookup_of_mem _ he

/-- C3. Join, the map write of line 93: afterwards the registry has exactly
one entry for `n`, bound to `h1`; the entries and lookups of every other name,
the room name and the trace are unchanged.  After a second Join of `n` with
`h2` the one entry for `n` is bound to `h2`, a following broadcast writes to
`h2`, and it does not write to `h1` when `h1` is another handle that no other
name holds. -/
theorem Join_overwrites (E : Env) (w : World) (n : String) (h1 h2 : Conn) (m : String) :
    (Join n h1 w).room.Connections.lookup n = some h1
    ∧ (Join n h1 w).room.Connections.entries.filter (fun e => decide (e.1 = n)) = [(n, h1)]
    ∧ (∀ e : String × Conn, e.1 ≠ n →
        (e ∈ (Join n h1 w).room.Connections.entries ↔ e ∈ w.room.Connections.entries))
    ∧ (∀ k, k ≠ n → (Join n h1 w).room.Connections.lookup k = w.room.Connections.lookup k)
    ∧ (Join n h1 w).trace = w.trace ∧ (Join n h1 w).room.Name = w.room.Name
    ∧ (Join n h2 (Join n h1 w)).room.Connections.entries.filter (fun e => decide (e.1 = n))
        = [(n, h2)]
    ∧ (Join n h2 (Join n h1 w)).room.Connections.lookup n = some h2
    ∧ (TextMessage, m) ∈ writesOn h2
        (emitted (Join n h2 (Join n h1 w)) (Broadcast E (Join n h2 (Join n h1 w)) m))
    ∧ (h1 ≠ h2 → (∀ e ∈ w.room.Connections.entries, e.1 ≠ n → e.2 ≠ h1) →
        writesOn h1
          (emitted (Join n h2 (Join n h1 w)) (Broadcast E (Join n h2 (Join n h1 w)) m)) = []) := by
  have hfilter : ∀ (h : Conn) (l : List (String × Conn)),
      ((n, h) :: dropKey n l).filter (fun e => decide (e.1 = n)) = [(n, h)] := by
    intro h l
    rw [List.filter_cons_of_pos (by simp), filter_key_dropKey]
  have hlook : ∀ (h : Conn) (R : Registry), (R.insert n h).lookup n = some h := by
    intro h R
    simp [Registry.lookup, Registry.insert]
  refine ⟨hlook h1 _, hfilter h1 _, ?_, ?_, rfl, rfl, hfilter h2 _, hlook h2 _, ?_, ?_⟩
  · intro e he
    show e ∈ (n, h1) :: dropKey n w.room.Connections.entries ↔ _
    rw [List.mem_cons, mem_dropKey]
    constructor
    · rintro (h | h)
      · exact absurd (congrArg Prod.fst h) he
      · exact h.1
    · intro h
      exact Or.inr ⟨h, he⟩
  · intro k hk
    show (((n, h1) :: dropKey n w.room.Connections.entries).find?
      (fun e => decide (e.1 = k))).map Prod.snd = _
    rw [List.find?_cons_of_neg, find_key_dropKey_ne hk]
    · rfl
    · simpa using fun h : n = k => hk h.symm
  · have hmem : (n, h2) ∈ (Join n h2 (Join n h1 w)).room.Connections.entries :=
      List.mem_cons_self _ _
    rw [Broadcast_writesOn, List.mem_replicate]
    exact ⟨bindings_pos hmem, rfl⟩
  · intro hne hfresh
    rw [Broadcast_writesOn, bindings_eq_zero, List.replicate_zero]
    intro hmem
    rcases List.mem_map.1 hmem with ⟨e, he, hc⟩
    have he2 : e ∈ (n, h2) :: dropKey n ((n, h1) :: dropKey n w.room.Connections.entries) := he
    rcases List.mem_cons.1 he2 with h | h
    · exact hne (by rw [← hc, h])
    · obtain ⟨h3, hk⟩ := mem_dropKey.1 h
      rcases List.mem_cons.1 h3 with h4 | h4
      · exact hk (by rw [h4])
      · exact hfresh e (mem_dropKey.1 h4).1 hk hc

/-- Instance of C3: in the empty room, after connection 1 and then connection 2
joined as a, a broadcast attempts no write on connection 1. -/
theorem Join_overwrites_witness :
    writesOn 1 (emitted (Join "a" 2 (Join "a" 1 World.init))
      (Broadcast (Env.simple []) (Join "a" 2 (Join "a" 1 World.init)) "hello")) = [] :=
  (Join_overwrites (Env.simple []) World.init "a" 1 2 "hello").2.2.2.2.2.2.2.2.2
    (by decide) (by decide)

/-- C4. Leave, the deferred `delete` of line 94: afterwards the registry has no
entry for `n`; the entries and lookups of every other name, the room name and
the trace are unchanged; when `n` is absent the world is exactly the one
before; Leave twice equals Leave once.  The function is total. -/
theorem Leave_idempotent (w : World) (n : String) :
    (Leave n w).room.Connections.lookup n = none
    ∧ n ∉ (Leave n w).room.Connections.names
    ∧ (∀ e : String × Conn, e.1 ≠ n →
        (e ∈ (Leave n w).room.Connections.entries ↔ e ∈ w.room.Connections.entries))
    ∧ (∀ k, k ≠ n → (Leave n w).room.Connections.lookup k = w.room.Connections.lookup k)
    ∧ (Leave n w).trace = w.trace ∧ (Leave n w).room.Name = w.room.Name
    ∧ (n ∉ w.room.Connections.names → Leave n w = w)
    ∧ Leave n (Leave n w) = Leave n w := by
  have hnot : n ∉ (dropKey n w.room.Connections.entries).map Prod.fst := by
    intro hmem
    rcases List.mem_map.1 hmem with ⟨e, he, hk⟩
    exact (mem_dropKey.1 he).2 hk
  have habsent : ∀ v : World, n ∉ v.room.Connections.names → Leave n v = v := by
    intro v hv
    obtain ⟨⟨nm, R⟩, t⟩ := v
    have : R.delete n = R := Registry.eq_of_entries (dropKey_eq_self hv)
    simp [Leave, this]
  refine ⟨?_, hnot, ?_, ?_, rfl, rfl, habsent w, habsent _ hnot⟩
  · show ((dropKey n w.room.Connections.entries).find? (fun e => decide (e.1 = n))).map
      Prod.snd = none
    rw [find_key_dropKey_self]
    rfl
  · intro e he
    show e ∈ dropKey n w.room.Connections.entries ↔ _
    rw [mem_dropKey]
    exact ⟨fun h => h.1, fun h => ⟨h, he⟩⟩
  · intro k hk
    show ((dropKey n w.room.Connections.entries).find? (fun e => decide (e.1 = k))).map
      Prod.snd = _
    rw [find_key_dropKey_ne hk]
    rfl

/-- Instance of C4: nobody in the room of a, b and c is called zed, and Leave of
zed returns the same world. -/
theorem Leave_idempotent_witness : Leave "zed" roomABC = roomABC :=
  (Leave_idempotent roomABC "zed").2.2.2.2.2.2.1 (by decide)

/-! ## One handler -/

/-- C7. Join announcement, lines 89 to 93: for a handle `h` that the room does
not hold yet, the handler first broadcasts the text "<n> has joined the room."
to the room as it was (each connection gets one write per entry that holds it,
exactly one when the handles are distinct, nothing at all in the empty room,
and no write goes to `h`), and then stores `h` under `n`: the registry after
the step is the one before with `n` bound to `h`. -/
theorem joined_announces (E : Env) (w : World) (n : String) (h : Conn)
    (hfresh : h ∉ w.room.Connections.handles) :
    joined E n h w = Join n h (Broadcast E w (n ++ " has joined the room."))
    ∧ (joined E n h w).trace = w.trace ++ emitted w (joined E n h w)
    ∧ (∀ c, writesOn c (emitted w (joined E n h w))
        = List.replicate (w.room.Connections.bindings c)
            (TextMessage, n ++ " has joined the room."))
    ∧ (w.room.Connections.handles.Nodup → ∀ c ∈ w.room.Connections.handles,
        writesOn c (emitted w (joined E n h w)) = [(TextMessage, n ++ " has joined the room.")])
    ∧ writesOn h (emitted w (joined E n h w)) = []
    ∧ (w.room.Connections.entries = [] → emitted w (joined E n h w) = [])
    ∧ (joined E n h w).room.Connections = w.room.Connections.insert n h
    ∧ (joined E n h w).room.Connections.lookup n = some h := by
  have hem : emitted w (joined E n h w)
      = emitted w (Broadcast E w (n ++ " has joined the room.")) := rfl
  have hroom : (joined E n h w).room.Connections = w.room.Connections.insert n h := by
    show (Broadcast E w (n ++ " has joined the room.")).room.Connections.insert n h = _
    rw [Broadcast_room]
  rw [hem]
  refine ⟨rfl, Broadcast_trace E w _, Broadcast_writesOn E w _, ?_, ?_, ?_, hroom, ?_⟩
  · intro hnd c hc
    rw [Broadcast_writesOn, Registry.bindings, List.count_eq_one_of_mem hnd hc]
    rfl
  · rw [Broadcast_writesOn, bindings_eq_zero hfresh]
    rfl
  · intro hnil
    rw [Broadcast_empty E w _ hnil, emitted_self]
  · rw [hroom]
    simp [Registry.lookup, Registry.insert]

/-- Instance of C7: connection 4 joins the room of a, b and c as dan; connection
2 gets exactly the announcement. -/
theorem joined_announces_witness :
    writesOn 2 (emitted roomABC (joined (Env.simple [2]) "dan" 4 roomABC))
      = [(TextMessage, "dan has joined the room.")] :=
  (joined_announces (Env.simple [2]) roomABC "dan" 4 (by decide)).2.2.2.1 (by decide) 2
    (by decide)

/-- C8. Relay loop, lines 96 to 106: for every sequence of messages read before
the read fails, the loop leaves the room as it was and only appends to the
trace; the writes it attempts on a connection `c` are, in the order the
messages were read, the text `n ++ " " ++ p` for each text message with payload
`p`, once per entry that holds `c` (so exactly once for a connection registered
once); a message of another type changes nothing. -/
theorem readLoop_relays (E : Env) (w : World) (n : String) (reads : List (Nat × String))
    (readErr : String) (c : Conn) :
    (readLoop E n reads readErr w).room = w.room
    ∧ (readLoop E n reads readErr w).trace = w.trace ++ emitted w (readLoop E n reads readErr w)
    ∧ writesOn c (emitted w (readLoop E n reads readErr w))
        = (reads.filter (fun r => decide (r.1 = TextMessage))).flatMap
            (fun r => List.replicate (w.room.Connections.bindings c)
              (TextMessage, n ++ " " ++ r.2))
    ∧ (w.room.Connections.bindings c = 1 →
        writesOn c (emitted w (readLoop E n reads readErr w))
          = (reads.filter (fun r => decide (r.1 = TextMessage))).map
              (fun r => (TextMessage, n ++ " " ++ r.2)))
    ∧ (∀ mt p, mt ≠ TextMessage → relay E n mt p w = w) := by
  obtain ⟨x, hx, hroom, hcount⟩ := readLoop_spec E n readErr reads w
  rw [emitted_of_append hx]
  refine ⟨hroom, hx, hcount c, ?_, ?_⟩
  · intro hone
    rw [hcount c, hone]
    induction reads.filter (fun r => decide (r.1 = TextMessage)) with
    | nil => rfl
    | cons r rest ih =>
      rw [List.flatMap_cons, ih]
      rfl
  · intro mt p hmt
    unfold relay
    rw [if_neg hmt]

/-- Instance of C8: a sends the text hi, a binary frame and the text yo, then
its read fails; connection 2, whose writes fail, is written to twice. -/
theorem readLoop_relays_witness :
    writesOn 2 (emitted roomABC
        (readLoop (Env.simple [2]) "a" [(1, "hi"), (2, "bin"), (1, "yo")] "EOF" roomABC))
      = [(TextMessage, "a hi"), (TextMessage, "a yo")] :=
  (readLoop_relays (Env.simple [2]) roomABC "a" [(1, "hi"), (2, "bin"), (1, "yo")] "EOF" 2).2.2.2.1
    (by decide)

/-- C6. Cleanup after the read fails: for a handler that joined as `n` with a
handle `conn` the room did not hold, and every sequence of messages read
before the failure, `socketHandler` returns; what it does after the failure is
logged is: remove the entry of `n` (the registry is then the one at the failure
without `n`, which is the starting one without `n`), attempt the text write of
"<n> has left the room." once per entry left after the removal, with a log line
for a failed write and nothing else, and last of all `Close` on `conn`.  No
write at all goes to `conn` after the failure. -/
theorem socketHandler_cleanup (E : Env) (w : World) (n : String) (conn : Conn)
    (reads : List (Nat × String)) (readErr : String)
    (hfresh : conn ∉ w.room.Connections.handles) :
    (socketHandler E (Except.ok conn) n reads readErr w).2 = Outcome.returned
    ∧ (socketHandler E (Except.ok conn) n reads readErr w).1.room.Connections
        = (atReadFailure E n conn reads readErr w).room.Connections.delete n
    ∧ (socketHandler E (Except.ok conn) n reads readErr w).1.room.Connections.lookup n = none
    ∧ (socketHandler E (Except.ok conn) n reads readErr w).1.room.Connections.entries
        = dropKey n w.room.Connections.entries
    ∧ (∃ ws, (socketHandler E (Except.ok conn) n reads readErr w).1.trace
          = (atReadFailure E n conn reads readErr w).trace ++ ws ++ [Effect.close (some conn)]
        ∧ (∀ c, writesOn c ws
            = List.replicate
                (((atReadFailure E n conn reads readErr w).room.Connections.delete n).bindings c)
                (TextMessage, n ++ " has left the room."))
        ∧ (∀ e ∈ ws,
            (∃ c ∈ ((atReadFailure E n conn reads readErr w).room.Connections.delete n).handles,
                e = Effect.write c TextMessage (n ++ " has left the room."))
              ∨ ∃ l, e = Effect.log l))
    ∧ writesOn conn (emitted (atReadFailure E n conn reads readErr w)
        (socketHandler E (Except.ok conn) n reads readErr w).1) = [] := by
  obtain ⟨x, hx, hroom, hcount, hshape⟩ :=
    Broadcast_spec E (Leave n (atReadFailure E n conn reads readErr w)) (n ++ " has left the room.")
  have hres : socketHandler E (Except.ok conn) n reads readErr w
      = ({ room := (Broadcast E (Leave n (atReadFailure E n conn reads readErr w))
                      (n ++ " has left the room.")).room
           trace := (Broadcast E (Leave n (atReadFailure E n conn reads readErr w))
                      (n ++ " has left the room.")).trace ++ [Effect.close (some conn)] },
         Outcome.returned) := rfl
  have hentries : ((atReadFailure E n conn reads readErr w).room.Connections.delete n).entries
      = dropKey n w.room.Connections.entries := by
    show dropKey n (atReadFailure E n conn reads readErr w).room.Connections.entries = _
    rw [atReadFailure_entries, dropKey_cons_self, dropKey_dropKey]
  have hnot : conn ∉ ((atReadFailure E n conn reads readErr w).room.Connections.delete n).handles := by
    intro hmem
    rcases List.mem_map.1 hmem with ⟨e, he, hc⟩
    rw [hentries] at he
    exact hfresh (List.mem_map.2 ⟨e, (mem_dropKey.1 he).1, hc⟩)
  have htrace : (socketHandler E (Except.ok conn) n reads readErr w).1.trace
      = (atReadFailure E n conn reads readErr w).trace ++ (x ++ [Effect.close (some conn)]) := by
    rw [hres]
    show (Broadcast E (Leave n (atReadFailure E n conn reads readErr w))
      (n ++ " has left the room.")).trace ++ [Effect.close (some conn)] = _
    rw [hx, List.append_assoc]
    rfl
  have hconns : (socketHandler E (Except.ok conn) n reads readErr w).1.room.Connections
      = (atReadFailure E n conn reads readErr w).room.Connections.delete n := by
    rw [hres]
    show (Broadcast E (Leave n (atReadFailure E n conn reads readErr w))
      (n ++ " has left the room.")).room.Connections = _
    rw [hroom]
    rfl
  refine ⟨by rw [hres], hconns, ?_, ?_, ⟨x, ?_, hcount, hshape⟩, ?_⟩
  · rw [hconns]
    show ((dropKey n (atReadFailure E n conn reads readErr w).room.Connections.entries).find?
      (fun e => decide (e.1 = n))).map Prod.snd = none
    rw [find_key_dropKey_self]
    rfl
  · rw [hconns, hentries]
  · rw [htrace, List.append_assoc]
  · have hzero : (Leave n (atReadFailure E n conn reads readErr w)).room.Connections.bindings conn
        = 0 := bindings_eq_zero hnot
    rw [emitted_of_append htrace, writesOn_append, hcount conn, hzero]
    simp [writesOn]

/-- Instance of C6: connection 4 joins the room of a, b and c as dan, sends one
text and fails; after the failure no write goes to connection 4. -/
theorem socketHandler_cleanup_witness :
    writesOn 4 (emitted (atReadFailure (Env.simple [2]) "dan" 4 [(1, "hi")] "EOF" roomABC)
        (socketHandler (Env.simple [2]) (Except.ok 4) "dan" [(1, "hi")] "EOF" roomABC).1) = [] :=
  (socketHandler_cleanup (Env.simple [2]) roomABC "dan" 4 [(1, "hi")] "EOF"
    (by decide)).2.2.2.2.2

/-- C10, the code at a failed handshake: `upgrader.Upgrade` returns an error and
the nil handle.  The room is untouched and nothing is broadcast, but after the
log line the deferred `conn.Close()` of line 82 still runs, on the nil handle,
and the handler ends in a panic instead of returning. -/
theorem socketHandler_upgrade_error (E : Env) (w : World) (n : String)
    (reads : List (Nat × String)) (readErr err : String) :
    socketHandler E (Except.error err) n reads readErr w
      = ({ room := w.room
           trace := w.trace ++ [Effect.log ("upgrader.Upgrade: " ++ err), Effect.close none] },
         Outcome.panicked) := by
  simp [socketHandler, Upgrade.conn, Close, logPrintf]

/-! ## All handlers together -/

/-- C5 as written fails: two connections join as a, the second one leaves.
The name a is then absent from the registry although the first connection,
which joined as a, is still live. -/
theorem membership_iff_fails :
    ¬ ("a" ∈ (System.run (Env.simple [])
          [Action.join "a", Action.join "a", Action.readFail 1 "EOF"]).world.room.Connections.names
        ↔ ∃ h ∈ (System.run (Env.simple [])
          [Action.join "a", Action.join "a", Action.readFail 1 "EOF"]).live, h.name = "a") := by
  decide

/-- C5, amended.  In every state reached from the empty room by lifecycle
steps, a name bound in the registry to a handle is the name and the handle of
a live handler.  When no join uses the name of a handler live at that moment,
the converse holds too: every live handler is registered under its name with
its own handle, and a name is present exactly when a live handler joined under
it. -/
theorem membership_invariant (E : Env) (acts : List Action) :
    (∀ n c, (System.run E acts).world.room.Connections.lookup n = some c →
        (⟨n, c⟩ : Handler) ∈ (System.run E acts).live)
    ∧ (freshNames E System.init acts = true →
        (∀ h ∈ (System.run E acts).live,
          (System.run E acts).world.room.Connections.lookup h.name = some h.conn)
        ∧ (∀ n, n ∈ (System.run E acts).world.room.Connections.names
            ↔ ∃ h ∈ (System.run E acts).live, h.name = n)) := by
  have hinv : ∀ e ∈ (System.run E acts).world.room.Connections.entries,
      (⟨e.1, e.2⟩ : Handler) ∈ (System.run E acts).live :=
    foldl_keeps E acts System.init (fun h hh => by cases hh) List.nodup_nil
      (fun e he => by cases he)
  refine ⟨fun n c hl => hinv (n, c) (mem_of_lookup _ hl), fun hf => ?_⟩
  have hreg : ∀ h ∈ (System.run E acts).live,
      (h.name, h.conn) ∈ (System.run E acts).world.room.Connections.entries :=
    foldl_keeps_registered E acts System.init hf (fun h hh => by cases hh) List.nodup_nil
  refine ⟨fun h hh => lookup_of_mem _ (hreg h hh), fun n => ⟨?_, ?_⟩⟩
  · intro hn
    rcases List.mem_map.1 hn with ⟨e, he, hk⟩
    exact ⟨⟨e.1, e.2⟩, hinv e he, hk⟩
  · rintro ⟨h, hh, hk⟩
    exact List.mem_map.2 ⟨(h.name, h.conn), hreg h hh, hk⟩

/-- Instance of C5, amended: a and b join, a sends a text, a leaves; the names
differ, and b, the live handler, is registered with its handle 1. -/
theorem membership_invariant_witness :
    (System.run (Env.simple [])
        [Action.join "a", Action.join "b", Action.message 0 1 "hi",
          Action.readFail 0 "EOF"]).world.room.Connections.lookup "b" = some 1 :=
  ((membership_invariant (Env.simple [])
      [Action.join "a", Action.join "b", Action.message 0 1 "hi", Action.readFail 0 "EOF"]).2
    (by decide)).1 ⟨"b", 1⟩ (by decide)

end Whist
